import Mathlib

/-!
# steer_drive: encoder link, target resolution, module controller

A shallow embedding of `src/main.cpp` (four-module swerve drive firmware).

Conventions of the embedding.

* Machine integers are `Nat`/`Int` with an explicit wrap at every place where the
  C++ code converts to a fixed-width type (`u16`, `wrapInt8`, `wrapInt16`, `wrapInt32`).
* `float` values are rationals, and every binary32 operation of the embedded lines
  (the products of lines 99, 101 and 123, the `float` literals and the conversions from
  `int`) rounds its exact result with `f32_round`, round to nearest, ties to even.
  Overflow to infinity is not modelled; no product of these lines comes near `2^128`.
* The two `double` expressions are embedded exactly, and each is shown to be insensitive
  to the rounding of `double` arithmetic: the quotient `2.0 * offset / enc_rot` is never
  within `1 / 12934` of a rounding tie (`steer_r_rounding_stable`), and the product
  `INT16_MAX * 0.7` is `22936.9`, at distance `0.1` from an integer
  (`DCSender_max_stable`).
* The `do ... while` loop of `Amt21::is_valid` is embedded with fuel and returns
  `none` when the fuel runs out; `is_valid_eq` shows that it never does on 16-bit words.
* `rct::Pid` (`Pid.h`) and `C620::max` (`C620.h`) are not part of the sources; they are
  parameters of the embedding.
-/

namespace SteerDrive

/-! ## Fixed-width arithmetic -/

/-- Conversion of an integer value to `uint16_t`. -/
def u16 (x : Nat) : Nat := x % 65536

/-- Conversion of an integer value to `uint8_t`. -/
def u8 (x : Nat) : Nat := x % 256

/-- Conversion of an integer value to `bool`: every nonzero value is `true`. -/
def to_bool (x : Nat) : Bool := decide (x ≠ 0)

/-- Conversion of an `int` value to `int8_t` (two's complement wrap). -/
def wrapInt8 (x : Int) : Int := (x + 128) % 256 - 128

/-- Conversion of an `int` value to `int16_t` (two's complement wrap). -/
def wrapInt16 (x : Int) : Int := (x + 32768) % 65536 - 32768

/-- Result of 32-bit `int` arithmetic, wrapped to two's complement. Signed overflow is
undefined in C++; the theorems that depend on it assume the value is in range. -/
def wrapInt32 (x : Int) : Int := (x + 2147483648) % 4294967296 - 2147483648

/-- The value fits an `int32_t`. -/
def inInt32 (x : Int) : Prop := -2147483648 ≤ x ∧ x ≤ 2147483647

instance (x : Int) : Decidable (inInt32 x) := by unfold inInt32; infer_instance

/-- Conversion of a floating-point value to an integer type: truncation toward zero. -/
def c_trunc (x : ℚ) : Int := if 0 ≤ x then ⌊x⌋ else ⌈x⌉

/-- The function `std::round`: nearest integer, halfway cases away from zero. -/
def c_round (x : ℚ) : Int := if 0 ≤ x then ⌊x + 1 / 2⌋ else ⌈x - 1 / 2⌉

/-- The function `std::clamp(v, lo, hi)`. -/
def clamp (v lo hi : ℚ) : ℚ := if v < lo then lo else if hi < v then hi else v

/-! ## Binary32 arithmetic -/

/-- Number of halvings that bring `n` below 2, with fuel. -/
def log2_fuel : Nat → Nat → Nat
  | 0, _ => 0
  | fuel + 1, n => if n < 2 then 0 else log2_fuel fuel (n / 2) + 1

/-- Floor of the binary logarithm of a positive natural number. -/
def ilog2 (n : Nat) : Nat := log2_fuel n n

/-- Binary exponent of a nonzero rational: the `e` with `2^e ≤ |x| < 2^(e+1)`. -/
def binade (x : ℚ) : Int :=
  let e0 : Int := (ilog2 x.num.natAbs : Int) - (ilog2 x.den : Int)
  if (2 : ℚ) ^ e0 ≤ |x| then e0 else e0 - 1

/-- Nearest integer, halfway cases to the even neighbour. -/
def round_half_even (x : ℚ) : Int :=
  let f := ⌊x⌋
  if x - f < 1 / 2 then f else if 1 / 2 < x - f then f + 1 else if f % 2 = 0 then f else f + 1

/-- Rounding of an exact result to binary32 (24-bit significand, least exponent -126,
subnormals included): round to nearest, ties to even. -/
def f32_round (x : ℚ) : ℚ :=
  if x = 0 then 0 else
    let e := max (binade x) (-126)
    (round_half_even (x / (2 : ℚ) ^ (e - 23)) : ℚ) * (2 : ℚ) ^ (e - 23)

/-- Conversion of an `int` value to `float`. -/
def int_to_f32 (n : Int) : ℚ := f32_round (n : ℚ)

/-! ## Constants (lines 17-20, 35) -/

/-- Line 18: `constexpr int enc_rot = 12934`. -/
def enc_rot : Int := 12934

/-- The constant `INT16_MAX`. -/
def INT16_MAX : Int := 32767

/-- Line 35: `static constexpr int max = INT16_MAX * 0.7` (a `double` truncated to `int`). -/
def DCSender.max : Int := c_trunc ((INT16_MAX : ℚ) * (7 / 10))

/-! ## Encoder link: `Amt21` (lines 41-77) -/

/-- Lines 44-46: the fields of `struct Amt21`. -/
structure Amt21 where
  address : Nat
  pos : Int
  pre_pos : Nat
deriving DecidableEq

/-- Line 42: `static constexpr int rotate = 4096`. -/
def Amt21.rotate : Int := 4096

/-- Lines 71-74: the `do ... while(raw_data <<= 1)` loop of `is_valid`. `k1` and `k0` are
`bool` variables, so `k ^= e` stores `bool(int(k) ^ e)`. One unit of fuel is one pass. -/
def is_valid_loop : Nat → Bool → Bool → Nat → Option Bool
  | 0, _, _, _ => none
  | fuel + 1, k1, k0, raw_data =>
    let k1 := to_bool (k1.toNat ^^^ (raw_data &&& 0x8000))
    let raw_data := u16 (raw_data <<< 1)
    let k0 := to_bool (k0.toNat ^^^ (raw_data &&& 0x8000))
    let raw_data := u16 (raw_data <<< 1)
    if raw_data ≠ 0 then is_valid_loop fuel k1 k0 raw_data else some (k0 && k1)

/-- Lines 67-76: `Amt21::is_valid` with an explicit bound on the number of loop passes. -/
def is_valid_fuel (fuel : Nat) (raw_data : Nat) : Option Bool :=
  let k1 := to_bool (raw_data >>> 15)
  let k0 := to_bool (raw_data >>> 14 &&& 1)
  let raw_data := u16 (raw_data <<< 2)
  is_valid_loop fuel k1 k0 raw_data

/-- Lines 67-76: `Amt21::is_valid`. A 16-bit word is exhausted after at most 7 passes. -/
def is_valid (raw_data : Nat) : Option Bool := is_valid_fuel 8 raw_data

/-- Line 51: the 12-bit position field `(now_pos & 0x3fff) >> 2`. -/
def raw12 (w : Nat) : Nat := (w &&& 0x3fff) >>> 2

/-- Lines 52-57: the signed 16-bit difference to the previous sample, unwrapped. -/
def unwrap_diff (now_pos pre_pos : Nat) : Int :=
  let diff := wrapInt16 ((now_pos : Int) - (pre_pos : Int))
  if diff > Amt21.rotate / 2 then wrapInt16 (diff - Amt21.rotate)
  else if diff < -Amt21.rotate / 2 then wrapInt16 (diff + Amt21.rotate)
  else diff

/-- Lines 48-63: `Amt21::request_pos`. The argument `rx` is what `rs485.uart_receive`
delivers: `none` on timeout, `some w` for a received 16-bit word `w`. The result is the
returned `bool` and the object afterwards. -/
def Amt21.request_pos (s : Amt21) (rx : Option Nat) : Option (Bool × Amt21) :=
  match rx with
  | none => some (false, s)
  | some w =>
    match is_valid w with
    | none => none
    | some false => some (false, s)
    | some true =>
      let now_pos := raw12 w
      let diff := unwrap_diff now_pos s.pre_pos
      some (true, { s with pos := wrapInt32 (s.pos + diff), pre_pos := now_pos })

/-- Lines 168-170 over successive iterations of the main loop, for one encoder: one
`request_pos` call per received response, the returned flag being discarded. -/
def Amt21.polls (s : Amt21) : List (Option Nat) → Option Amt21
  | [] => some s
  | rx :: rest => (s.request_pos rx).bind (fun r => Amt21.polls r.2 rest)

/-- Line 77: the four encoders, `amt[] = {{0x50}, {0x54}, {0x58}, {0x5C}}`. -/
def amt : List Amt21 := [⟨0x50, 0, 0⟩, ⟨0x54, 0, 0⟩, ⟨0x58, 0, 0⟩, ⟨0x5C, 0, 0⟩]

/-! ### Parity of the two interleaved bit domains -/

/-- XOR of the odd-indexed bits 15, 13, ..., 1 of a word. -/
def xor_odd (w : Nat) : Bool :=
  xor (w.testBit 15) (xor (w.testBit 13) (xor (w.testBit 11) (xor (w.testBit 9)
    (xor (w.testBit 7) (xor (w.testBit 5) (xor (w.testBit 3) (w.testBit 1)))))))

/-- XOR of the even-indexed bits 14, 12, ..., 0 of a word. -/
def xor_even (w : Nat) : Bool :=
  xor (w.testBit 14) (xor (w.testBit 12) (xor (w.testBit 10) (xor (w.testBit 8)
    (xor (w.testBit 6) (xor (w.testBit 4) (xor (w.testBit 2) (w.testBit 0)))))))

/-- Some odd-indexed bit of the word is set. -/
def any_odd (w : Nat) : Bool :=
  w.testBit 15 || w.testBit 13 || w.testBit 11 || w.testBit 9 ||
  w.testBit 7 || w.testBit 5 || w.testBit 3 || w.testBit 1

/-- Some even-indexed bit of the word is set. -/
def any_even (w : Nat) : Bool :=
  w.testBit 14 || w.testBit 12 || w.testBit 10 || w.testBit 8 ||
  w.testBit 6 || w.testBit 4 || w.testBit 2 || w.testBit 0

/-! ### Displacement traces for the unwrap property -/

/-- The responses `rxs` carry the displacements `ds`: a timed-out or rejected response
carries nothing, and each accepted word carries the next displacement `d`, of magnitude
below half a rotation, its 12-bit field being the previous raw sample plus `d` modulo
one rotation. -/
def Tracks : Nat → List Int → List (Option Nat) → Prop
  | _, ds, [] => ds = []
  | raw, ds, none :: rxs => Tracks raw ds rxs
  | raw, ds, some w :: rxs =>
    w < 65536 ∧
    (if is_valid w = some true then
      match ds with
      | [] => False
      | d :: ds' =>
        -2048 < d ∧ d < 2048 ∧ (raw12 w : Int) = ((raw : Int) + d) % 4096 ∧
          Tracks (raw12 w) ds' rxs
    else Tracks raw ds rxs)

/-- Every running sum of the displacements, added to `pos`, fits an `int32_t`. -/
def PosInRange : Int → List Int → Prop
  | pos, [] => inInt32 pos
  | pos, d :: ds => inInt32 pos ∧ PosInRange (pos + d) ds

/-- The invariant of the encoder state: `pre_pos` is a 12-bit sample and `pos` agrees
with it modulo one rotation. -/
def Amt21.Inv (s : Amt21) : Prop := s.pre_pos ≤ 4095 ∧ (s.pos - (s.pre_pos : Int)) % 4096 = 0

/-! ## Target resolution: the `steer` lambda (lines 117-126) -/

/-- The two fields of `SteerUnit` written by the target-resolution step. -/
structure SteerTarget where
  target_rpm : Int
  target_pos : Int
deriving DecidableEq

/-- Line 120: `int offset = new_tag_pos - (-amt[i].pos)`. -/
def steer_offset (new_tag_pos amt_pos : Int) : Int :=
  wrapInt32 (new_tag_pos - wrapInt32 (-amt_pos))

/-- Line 121: `int r = std::round(2.0 * offset / enc_rot)`. -/
def steer_r (offset : Int) : Int := c_round (2 * (offset : ℚ) / (enc_rot : ℚ))

/-- Line 122: `int drive_dir = 2 * (r % 2 == 0) - 1`, with the truncating `%` of C++. -/
def steer_drive_dir (r : Int) : Int := 2 * (if Int.tmod r 2 = 0 then 1 else 0) - 1

/-- Lines 120-124: the body of the loop of the `steer` lambda for one module.
`new_tag_pos` is the integer of line 119, `mag` the `float` value of `abs(cmp[i])` and
`amt_pos` the value of `amt[i].pos`. In line 123 both products are binary32 products of
`float` operands (`9000` and `drive_dir` converted from `int`), and the result is
converted to `int`. -/
def steer_resolve (new_tag_pos : Int) (mag : ℚ) (amt_pos : Int) : SteerTarget :=
  let offset := steer_offset new_tag_pos amt_pos
  let r := steer_r offset
  let drive_dir := steer_drive_dir r
  { target_rpm :=
      c_trunc (f32_round (f32_round (mag * int_to_f32 9000) * int_to_f32 drive_dir)),
    target_pos := wrapInt32 (new_tag_pos - wrapInt32 (r * (enc_rot / 2))) }

/-- No `int` operation of lines 120-124 overflows. -/
def steer_no_overflow (new_tag_pos amt_pos : Int) : Prop :=
  inInt32 new_tag_pos ∧ inInt32 amt_pos ∧ inInt32 (-amt_pos) ∧
  inInt32 (new_tag_pos - -amt_pos) ∧
  inInt32 (steer_r (new_tag_pos - -amt_pos) * (enc_rot / 2)) ∧
  inInt32 (new_tag_pos - steer_r (new_tag_pos - -amt_pos) * (enc_rot / 2))

instance (new_tag_pos amt_pos : Int) : Decidable (steer_no_overflow new_tag_pos amt_pos) := by
  unfold steer_no_overflow; infer_instance

/-! ## Module controller: `SteerUnit` (lines 96-108) and the control loop (lines 195-208) -/

/-- The interface of `rct::Pid<float>` used by the sources: `calc(target, now, dt)`
(field `pid_calc`, the word `calc` being reserved) returns the output and updates the
state, `refresh()` updates the state. The header `Pid.h` is not part of the sources, so
the operations are a parameter. -/
structure PidOps (σ : Type) where
  pid_calc : σ → ℚ → ℚ → Int → σ × ℚ
  refresh : σ → σ

/-- Lines 104-107: the fields of `struct SteerUnit`. -/
structure SteerUnit (σ : Type) where
  pid_drive : σ
  pid_steer : σ
  target_rpm : Int
  target_pos : Int
deriving DecidableEq

/-- Lines 97-103: `SteerUnit::calc_pid`. Returns the tuple `{drive, steer}` and the
object afterwards. `c620_max` is the constant `C620::max` of `C620.h`. The clamp limits
are binary32 products of a `float` literal and a constant converted to `float`. The
integer arguments of `calc` are passed by value; what `calc` converts them to belongs to
the parameter. -/
def SteerUnit.calc_pid {σ : Type} (P : PidOps σ) (c620_max : Int) (u : SteerUnit σ)
    (rpm pos : Int) (delta_time : Int) : (ℚ × ℚ) × SteerUnit σ :=
  let rd := P.pid_calc u.pid_drive (u.target_rpm : ℚ) (rpm : ℚ) delta_time
  let drive := clamp rd.2 (f32_round (-f32_round 1 * int_to_f32 c620_max))
    (f32_round (f32_round 1 * int_to_f32 c620_max))
  let rs := P.pid_calc u.pid_steer (u.target_pos : ℚ) (pos : ℚ) delta_time
  let steer := -clamp rs.2 (f32_round (-f32_round (7 / 10) * int_to_f32 DCSender.max))
    (f32_round (f32_round (7 / 10) * int_to_f32 DCSender.max))
  ((drive, steer), { u with pid_drive := rd.1, pid_steer := rs.1 })

/-- The state of one module touched by lines 195-208: `dji.pwm[i]`, `dc_sender.pwm[i]`
and `unit[i]`. -/
structure ModuleState (σ : Type) where
  dji_pwm : Int
  dc_pwm : Int
  unit : SteerUnit σ
deriving DecidableEq

/-- Lines 196-207: the body of the per-module loop of the control cycle. Times are in
microseconds, so `100ms` is `100000`. The tuple of `float` is assigned to the two
command words by truncation; `dji.pwm[i]` (declared in `C620.h`) is taken to be an
`int16_t` like `dc_sender.pwm[i]`. -/
def control_module {σ : Type} (P : PidOps σ) (c620_max : Int) (now pre_alive : Int)
    (rpm amt_pos : Int) (delta : Int) (m : ModuleState σ) : ModuleState σ :=
  if now - pre_alive < 100000 ∨ True then
    let r := m.unit.calc_pid P c620_max rpm (wrapInt32 (-amt_pos)) delta
    { dji_pwm := wrapInt16 (c_trunc r.1.1), dc_pwm := wrapInt16 (c_trunc r.1.2), unit := r.2 }
  else
    { dji_pwm := Int.tdiv m.dji_pwm 2,
      dc_pwm := Int.tdiv m.dc_pwm 2,
      unit := { m.unit with pid_drive := P.refresh m.unit.pid_drive,
                            pid_steer := P.refresh m.unit.pid_steer } }

/-- A controller whose `calc` returns a fixed output, used to evaluate `calc_pid` and
the control loop at a given PID output. -/
def const_pid (out : ℚ) : PidOps ℚ where
  pid_calc := fun s _ _ _ => (s, out)
  refresh := fun _ => 0

/-! ## Operator input: `Controller` (lines 127-143) -/

/-- The frame formats of `CANMessage`. -/
inductive CANFormat where
  | CANStandard
  | CANExtended
  | CANAny
deriving DecidableEq

/-- The frame types of `CANMessage`. -/
inductive CANType where
  | CANData
  | CANRemote
deriving DecidableEq

/-- The fields of `CANMessage` read by `Controller::read`; `data` holds the 8 payload
bytes. -/
structure CANMessage where
  id : Nat
  data : List Nat
  format : CANFormat
  type : CANType

/-- Lines 128-129: `uint8_t button[2]` and `int8_t stick[4]`. -/
structure Controller where
  button : List Nat
  stick : List Int
deriving DecidableEq

/-- The value of a byte read through an `int8_t` object. -/
def as_int8 (b : Nat) : Int := wrapInt8 (u8 b : Nat)

/-- Lines 135-136: `e -= 128; if(std::abs(e) < 15) e = 0;`. -/
def stick_decode (e : Int) : Int :=
  let e := wrapInt8 (e - 128)
  if |e| < 15 then 0 else e

/-- Lines 131-139: `Controller::read`. -/
def Controller.read (c : Controller) (msg : CANMessage) : Controller :=
  if msg.format = CANFormat.CANStandard ∧ msg.type = CANType.CANData ∧ msg.id = 15 then
    let copied : Controller :=
      { button := [u8 (msg.data.getD 0 0), u8 (msg.data.getD 1 0)],
        stick := [as_int8 (msg.data.getD 2 0), as_int8 (msg.data.getD 3 0),
                  as_int8 (msg.data.getD 4 0), as_int8 (msg.data.getD 5 0)] }
    { copied with stick := copied.stick.map stick_decode }
  else c

/-! ## Theorems: checksum validation -/

theorem and_8000 (x : Nat) : x &&& 0x8000 = (x.testBit 15).toNat * 32768 := by
  have := Nat.and_two_pow x 15
  simpa using this

theorem to_bool_xor (k : Bool) (x : Nat) :
    to_bool (k.toNat ^^^ (x &&& 0x8000)) = (k || x.testBit 15) := by
  rw [and_8000]
  cases k <;> cases x.testBit 15 <;> decide

theorem testBit_shl1 (x i : Nat) : (u16 (x <<< 1)).testBit i = (decide (i < 16) && decide (1 ≤ i) && x.testBit (i - 1)) := by
  unfold u16
  rw [show (65536 : Nat) = 2 ^ 16 from rfl, Nat.testBit_mod_two_pow, Nat.testBit_shiftLeft]
  simp [Bool.and_assoc]


theorem testBit_shl2 (x i : Nat) :
    (u16 (u16 (x <<< 1) <<< 1)).testBit i = (decide (i < 16) && decide (2 ≤ i) && x.testBit (i - 2)) := by
  rw [testBit_shl1, testBit_shl1]
  by_cases h1 : i < 16 <;> by_cases h2 : 2 ≤ i
  · have e : i - 1 - 1 = i - 2 := by omega
    have a : i - 1 < 16 := by omega
    have b : 1 ≤ i - 1 := by omega
    have c : 1 ≤ i := by omega
    simp [h1, h2, e, a, b, c]
  · have : ¬ (1 ≤ i - 1) := by omega
    simp [h2, this]
  · simp [h1]
  · simp [h1]

theorem any_odd_step (x : Nat) :
    any_odd x = (x.testBit 15 || any_odd (u16 (u16 (x <<< 1) <<< 1))) := by
  simp only [any_odd, testBit_shl2]
  simp [Bool.or_assoc]

theorem any_even_step (x : Nat) :
    any_even x = (x.testBit 14 || any_even (u16 (u16 (x <<< 1) <<< 1))) := by
  simp only [any_even, testBit_shl2]
  simp [Bool.or_assoc]

theorem is_valid_loop_eq (n : Nat) : ∀ (k1 k0 : Bool) (raw : Nat),
    (∀ i, i + 2 * (n + 1) < 16 → raw.testBit i = false) →
    is_valid_loop (n + 1) k1 k0 raw = some ((k0 || any_even raw) && (k1 || any_odd raw)) := by
  induction n with
  | zero =>
    intro k1 k0 raw h
    have hz : u16 (u16 (raw <<< 1) <<< 1) = 0 := by
      apply Nat.eq_of_testBit_eq
      intro i
      rw [testBit_shl2, Nat.zero_testBit]
      by_cases h1 : i < 16 <;> by_cases h2 : 2 ≤ i
      · simp [h (i - 2) (by omega)]
      · simp [h2]
      · simp [h1]
      · simp [h1]
    rw [any_odd_step raw, any_even_step raw]
    simp only [is_valid_loop, hz, to_bool_xor, testBit_shl1]
    simp [any_odd, any_even, Bool.or_assoc]
  | succ m ih =>
    intro k1 k0 raw h
    rw [is_valid_loop]
    simp only [to_bool_xor, testBit_shl1]
    by_cases hz : u16 (u16 (raw <<< 1) <<< 1) = 0
    · rw [any_odd_step raw, any_even_step raw]
      simp [hz, any_odd, any_even]
    · rw [if_pos hz, ih]
      · rw [any_odd_step raw, any_even_step raw]
        simp [Bool.or_assoc]
      · intro i hi
        rw [testBit_shl2]
        by_cases h2 : 2 ≤ i
        · simp [h (i - 2) (by omega)]
        · simp [h2]

theorem testBit_shl2_direct (x i : Nat) :
    (u16 (x <<< 2)).testBit i = (decide (i < 16) && decide (2 ≤ i) && x.testBit (i - 2)) := by
  unfold u16
  rw [show (65536 : Nat) = 2 ^ 16 from rfl, Nat.testBit_mod_two_pow, Nat.testBit_shiftLeft]
  simp [Bool.and_assoc]

theorem to_bool_shr15 (w : Nat) (hw : w < 65536) : to_bool (w >>> 15) = w.testBit 15 := by
  unfold to_bool
  rw [Nat.testBit_to_div_mod, Nat.shiftRight_eq_div_pow]
  simp only [Nat.reducePow]
  have : w / 32768 = 0 ∨ w / 32768 = 1 := by omega
  rcases this with e | e <;> simp [e]

theorem to_bool_shr14 (w : Nat) : to_bool (w >>> 14 &&& 1) = w.testBit 14 := by
  unfold to_bool
  rw [Nat.testBit_to_div_mod, Nat.shiftRight_eq_div_pow, Nat.and_one_is_mod]
  rcases Nat.mod_two_eq_zero_or_one (w / 2 ^ 14) with h | h <;> simp [h]

theorem is_valid_eq (w : Nat) (hw : w < 65536) :
    is_valid w = some (any_even w && any_odd w) := by
  unfold is_valid is_valid_fuel
  simp only []
  rw [is_valid_loop_eq 7 _ _ _ (by intro i hi; omega), to_bool_shr15 w hw, to_bool_shr14]
  simp only [any_odd, any_even, testBit_shl2_direct]
  simp [Bool.or_assoc]

/-- C2 (evaluation at the failing input): `0x000F` has even parity in both domains and
`0x000C` has odd parity in both domains; flipping bit 0 of the first or bit 1 of the
second gives `0x000E`, which `is_valid` accepts. -/
theorem is_valid_single_bit_flip_accepted :
    (xor_odd 0x000F = false ∧ xor_even 0x000F = false ∧
      is_valid (0x000F ^^^ (1 <<< 0)) = some true) ∧
    (xor_odd 0x000C = true ∧ xor_even 0x000C = true ∧
      is_valid (0x000C ^^^ (1 <<< 1)) = some true) := by
  decide

/-! ## Theorems: encoder polling -/

theorem raw12_lt (w : Nat) : raw12 w < 4096 := by
  unfold raw12
  have h : w &&& 0x3fff ≤ 0x3fff := Nat.and_le_right
  rw [Nat.shiftRight_eq_div_pow]
  omega

theorem request_pos_none (s : Amt21) : s.request_pos none = some (false, s) := rfl

theorem request_pos_rejected (s : Amt21) (w : Nat) (h : is_valid w = some false) :
    s.request_pos (some w) = some (false, s) := by
  simp [Amt21.request_pos, h]

theorem request_pos_accepted (s : Amt21) (w : Nat) (h : is_valid w = some true) :
    s.request_pos (some w) =
      some (true, { s with pos := wrapInt32 (s.pos + unwrap_diff (raw12 w) s.pre_pos),
                           pre_pos := raw12 w }) := by
  simp [Amt21.request_pos, h]

theorem is_valid_cases (w : Nat) (hw : w < 65536) :
    is_valid w = some true ∨ is_valid w = some false := by
  rw [is_valid_eq w hw]
  cases (any_even w && any_odd w) <;> simp

/-- Every poll with a 16-bit response returns. -/
theorem request_pos_total (s : Amt21) (rx : Option Nat) (hrx : ∀ w, rx = some w → w < 65536) :
    ∃ r, s.request_pos rx = some r := by
  cases rx with
  | none => exact ⟨_, request_pos_none s⟩
  | some w =>
    rcases is_valid_cases w (hrx w rfl) with hv | hv
    · exact ⟨_, request_pos_accepted s w hv⟩
    · exact ⟨_, request_pos_rejected s w hv⟩

/-- The unwrapped difference recovers a displacement of magnitude below half a rotation. -/
theorem unwrap_diff_eq (now_pos pre_pos : Nat) (d : Int) (hp : pre_pos < 4096)
    (hd1 : -2048 < d) (hd2 : d < 2048) (hn : (now_pos : Int) = ((pre_pos : Int) + d) % 4096) :
    unwrap_diff now_pos pre_pos = d := by
  unfold unwrap_diff wrapInt16 Amt21.rotate
  simp only []
  split_ifs <;> omega

/-- The unwrapped difference of two 12-bit samples is at most half a rotation in
magnitude and congruent to their difference. -/
theorem unwrap_diff_bound (now_pos pre_pos : Nat) (hn : now_pos < 4096) (hp : pre_pos < 4096) :
    -2048 ≤ unwrap_diff now_pos pre_pos ∧ unwrap_diff now_pos pre_pos ≤ 2048 ∧
    (unwrap_diff now_pos pre_pos - ((now_pos : Int) - (pre_pos : Int))) % 4096 = 0 := by
  unfold unwrap_diff wrapInt16 Amt21.rotate
  simp only []
  split_ifs <;> omega

theorem wrapInt32_of_inInt32 (x : Int) (h : inInt32 x) : wrapInt32 x = x := by
  unfold inInt32 at h
  unfold wrapInt32
  omega

/-- A poll that returns `true` received a word accepted by `is_valid`. -/
theorem request_pos_true (s s' : Amt21) (rx : Option Nat)
    (h : s.request_pos rx = some (true, s')) :
    ∃ w, rx = some w ∧ is_valid w = some true ∧
      s' = { s with pos := wrapInt32 (s.pos + unwrap_diff (raw12 w) s.pre_pos),
                    pre_pos := raw12 w } := by
  cases rx with
  | none => simp [request_pos_none] at h
  | some w =>
    unfold Amt21.request_pos at h
    simp only [] at h
    split at h
    · cases h
    · simp at h
    · rename_i hv
      simp only [Option.some.injEq, Prod.mk.injEq, true_and] at h
      exact ⟨w, rfl, hv, h.symm⟩

/-- C9: a poll that times out or whose word fails the checksum returns `false` and leaves
the object unchanged; a poll returns `true` only for a received word that `is_valid`
accepted, and then `pre_pos` is the new 12-bit sample and `pos` has moved by the
unwrapped difference; every poll returns. -/
theorem request_pos_atomic (s : Amt21) (rx : Option Nat) (hrx : ∀ w, rx = some w → w < 65536) :
    ((rx = none ∨ ∃ w, rx = some w ∧ is_valid w = some false) →
      s.request_pos rx = some (false, s)) ∧
    (∀ s', s.request_pos rx = some (true, s') →
      ∃ w, rx = some w ∧ is_valid w = some true ∧ s'.address = s.address ∧
        s'.pre_pos = raw12 w ∧
        s'.pos = wrapInt32 (s.pos + unwrap_diff (raw12 w) s.pre_pos)) ∧
    (∃ b s', s.request_pos rx = some (b, s') ∧ (b = false → s' = s)) := by
  refine ⟨?_, ?_, ?_⟩
  · rintro (h | ⟨w, h, hv⟩)
    · rw [h, request_pos_none]
    · rw [h, request_pos_rejected s w hv]
  · intro s' h
    cases rx with
    | none => simp [request_pos_none] at h
    | some w =>
      rcases is_valid_cases w (hrx w rfl) with hv | hv
      · rw [request_pos_accepted s w hv] at h
        simp only [Option.some.injEq, Prod.mk.injEq, true_and] at h
        subst h
        exact ⟨w, rfl, hv, rfl, rfl, rfl⟩
      · rw [request_pos_rejected s w hv] at h
        simp at h
  · cases rx with
    | none => exact ⟨false, s, rfl, fun _ => rfl⟩
    | some w =>
      rcases is_valid_cases w (hrx w rfl) with hv | hv
      · exact ⟨true, _, request_pos_accepted s w hv, fun h => by simp at h⟩
      · exact ⟨false, s, request_pos_rejected s w hv, fun _ => rfl⟩

theorem request_pos_atomic_witness :
    (⟨0x50, 7, 4090⟩ : Amt21).request_pos (some 0x000A) = some (false, ⟨0x50, 7, 4090⟩) :=
  (request_pos_atomic ⟨0x50, 7, 4090⟩ (some 0x000A)
    (by intro w h; cases h; decide)).1 (Or.inr ⟨0x000A, rfl, by decide⟩)

theorem posInRange_head (pos : Int) (ds : List Int) (h : PosInRange pos ds) : inInt32 pos := by
  cases ds with
  | nil => exact h
  | cons d ds => exact h.1

/-- C3: from a state with a 12-bit `pre_pos`, when every accepted response carries the
next true displacement (magnitude below 2048, raw sample advanced modulo 4096) and no
running sum overflows `int32_t`, the polls return and leave `pos` at the initial `pos`
plus the sum of the displacements; timed-out and rejected responses in between change
nothing. -/
theorem polls_track_displacement (s : Amt21) (ds : List Int) (rxs : List (Option Nat))
    (hpre : s.pre_pos < 4096) (htr : Tracks s.pre_pos ds rxs) (hov : PosInRange s.pos ds) :
    ∃ s', s.polls rxs = some s' ∧ s'.pos = s.pos + ds.sum ∧ s'.address = s.address ∧
      (s'.pre_pos : Int) = ((s.pre_pos : Int) + ds.sum) % 4096 := by
  induction rxs generalizing s ds with
  | nil =>
    have hds : ds = [] := htr
    subst hds
    refine ⟨s, rfl, by simp, rfl, ?_⟩
    simp only [List.sum_nil, add_zero]
    omega
  | cons rx rxs ih =>
    cases rx with
    | none =>
      have htr' : Tracks s.pre_pos ds rxs := htr
      obtain ⟨s', h1, h2⟩ := ih s ds hpre htr' hov
      exact ⟨s', by simp [Amt21.polls, request_pos_none, h1], h2⟩
    | some w =>
      unfold Tracks at htr
      obtain ⟨hw, hif⟩ := htr
      rcases is_valid_cases w hw with hv | hv
      · rw [if_pos hv] at hif
        cases ds with
        | nil => exact hif.elim
        | cons d ds' =>
          obtain ⟨hd1, hd2, hraw, hrest⟩ := hif
          have hdiff := unwrap_diff_eq (raw12 w) s.pre_pos d hpre hd1 hd2 hraw
          have hin : inInt32 (s.pos + d) := posInRange_head _ _ hov.2
          obtain ⟨s', h1, h2, h3, h4⟩ :=
            ih { s with pos := wrapInt32 (s.pos + unwrap_diff (raw12 w) s.pre_pos),
                        pre_pos := raw12 w } ds' (raw12_lt w) hrest
              (by simp only [hdiff, wrapInt32_of_inInt32 _ hin]; exact hov.2)
          refine ⟨s', by simp [Amt21.polls, request_pos_accepted s w hv, h1], ?_, h3, ?_⟩
          · rw [h2]
            simp only [hdiff, wrapInt32_of_inInt32 _ hin, List.sum_cons]
            ring
          · rw [h4]
            simp only [List.sum_cons]
            omega
      · have hne : ¬ (is_valid w = some true) := by rw [hv]; simp
        rw [if_neg hne] at hif
        obtain ⟨s', h1, h2⟩ := ih s ds hpre hif hov
        exact ⟨s', by simp [Amt21.polls, request_pos_rejected s w hv, h1], h2⟩

theorem polls_track_displacement_witness :
    ∃ s', (⟨0x50, 100, 4090⟩ : Amt21).polls [some 0xC028, none, some 0x000A, some 0xFFA8]
        = some s' ∧ s'.pos = 100 + [16, -32].sum ∧ s'.address = 0x50 ∧
      (s'.pre_pos : Int) = (4090 + [16, -32].sum) % 4096 :=
  polls_track_displacement ⟨0x50, 100, 4090⟩ [16, -32]
    [some 0xC028, none, some 0x000A, some 0xFFA8] (by decide)
    (by simp only [Tracks]; decide) (by simp only [PosInRange]; decide)

/-- One poll preserves the invariant of the encoder state. -/
theorem request_pos_inv (s : Amt21) (h : s.Inv) (rx : Option Nat) (r : Bool × Amt21)
    (hr : s.request_pos rx = some r) : r.2.Inv := by
  cases rx with
  | none =>
    rw [request_pos_none] at hr
    cases hr
    exact h
  | some w =>
    unfold Amt21.request_pos at hr
    simp only [] at hr
    split at hr
    · cases hr
    · cases hr
      exact h
    · cases hr
      have hb := unwrap_diff_bound (raw12 w) s.pre_pos (raw12_lt w) (by have := h.1; omega)
      have hl := raw12_lt w
      obtain ⟨h1, h2⟩ := h
      refine ⟨by simp only []; omega, ?_⟩
      simp only [wrapInt32]
      omega

theorem polls_inv (rxs : List (Option Nat)) : ∀ (s s' : Amt21), s.Inv →
    s.polls rxs = some s' → s'.Inv := by
  induction rxs with
  | nil =>
    intro s s' h hp
    cases hp
    exact h
  | cons rx rxs ih =>
    intro s s' h hp
    unfold Amt21.polls at hp
    cases hq : s.request_pos rx with
    | none => rw [hq] at hp; cases hp
    | some r =>
      rw [hq] at hp
      exact ih r.2 s' (request_pos_inv s h rx r hq) hp

theorem polls_total (rxs : List (Option Nat)) : ∀ (s : Amt21),
    (∀ w, some w ∈ rxs → w < 65536) → ∃ s', s.polls rxs = some s' := by
  induction rxs with
  | nil => intro s _; exact ⟨s, rfl⟩
  | cons rx rxs ih =>
    intro s h
    obtain ⟨r, h1⟩ := request_pos_total s rx (fun w hw => h w (by simp [hw]))
    obtain ⟨s', h2⟩ := ih r.2 (fun w hw => h w (by simp [hw]))
    exact ⟨s', by simp [Amt21.polls, h1, h2]⟩

/-- C10: from the initial state of any of the four encoders, every sequence of polls
with 16-bit responses returns, and afterwards `pre_pos` is at most 4095 and `pos` is
congruent to `pre_pos` modulo 4096; every further successful poll moves `pos` by an
amount in [-2048, 2048] (exactly so when `pos` plus that amount fits `int32_t`). -/
theorem polls_invariant (s0 : Amt21) (hs0 : s0 ∈ amt) (rxs : List (Option Nat))
    (hrx : ∀ w, some w ∈ rxs → w < 65536) :
    ∃ s, s0.polls rxs = some s ∧ s.pre_pos ≤ 4095 ∧
      (s.pos - (s.pre_pos : Int)) % 4096 = 0 ∧
      ∀ rx s', s.request_pos rx = some (true, s') →
        ∃ δ : Int, -2048 ≤ δ ∧ δ ≤ 2048 ∧ s'.pos = wrapInt32 (s.pos + δ) ∧
          (inInt32 (s.pos + δ) → s'.pos - s.pos = δ) := by
  have h0 : s0.Inv := by
    simp only [amt, List.mem_cons, List.mem_singleton, List.not_mem_nil, or_false] at hs0
    rcases hs0 with h | h | h | h <;> subst h <;> exact ⟨by decide, by decide⟩
  obtain ⟨s, hs⟩ := polls_total rxs s0 hrx
  have hinv := polls_inv rxs s0 s h0 hs
  refine ⟨s, hs, hinv.1, hinv.2, ?_⟩
  intro rx s' h
  obtain ⟨w, _, _, hs'⟩ := request_pos_true s s' rx h
  have hb := unwrap_diff_bound (raw12 w) s.pre_pos (raw12_lt w) (by have := hinv.1; omega)
  refine ⟨unwrap_diff (raw12 w) s.pre_pos, hb.1, hb.2.1, by rw [hs'], ?_⟩
  intro hin
  rw [hs']
  simp only [wrapInt32_of_inInt32 _ hin]
  ring

theorem polls_invariant_witness :
    ∃ s, (⟨0x50, 0, 0⟩ : Amt21).polls [some 0xC028, none, some 0x000A, some 0xEEE0] = some s ∧
      s.pre_pos ≤ 4095 ∧ (s.pos - (s.pre_pos : Int)) % 4096 = 0 ∧
      ∀ rx s', s.request_pos rx = some (true, s') →
        ∃ δ : Int, -2048 ≤ δ ∧ δ ≤ 2048 ∧ s'.pos = wrapInt32 (s.pos + δ) ∧
          (inInt32 (s.pos + δ) → s'.pos - s.pos = δ) :=
  polls_invariant ⟨0x50, 0, 0⟩ (by simp [amt]) [some 0xC028, none, some 0x000A, some 0xEEE0]
    (by
      intro w hw
      simp at hw
      rcases hw with rfl | rfl | rfl <;> decide)

/-! ## Theorems: binary32 rounding -/

theorem ilog2_eq (n : Nat) : ilog2 n = Nat.log2 n := by
  suffices h : ∀ fuel n, n ≤ fuel → log2_fuel fuel n = Nat.log2 n from h n n le_rfl
  intro fuel
  induction fuel with
  | zero =>
    intro n hn
    have : n = 0 := by omega
    subst this
    simp [log2_fuel, Nat.log2]
  | succ f ih =>
    intro n hn
    rw [log2_fuel, Nat.log2]
    by_cases h : n < 2
    · have : ¬ (n ≥ 2) := by omega
      simp [h, this]
    · have h2 : n ≥ 2 := by omega
      simp only [h, h2, if_true, if_false]
      rw [ih (n / 2) (by omega)]

theorem abs_eq_natAbs_div (x : ℚ) : |x| = (x.num.natAbs : ℚ) / (x.den : ℚ) := by
  conv_lhs => rw [← Rat.num_div_den x]
  rw [abs_div, Nat.abs_cast]
  congr 1
  rw [Nat.cast_natAbs, Int.cast_abs]

theorem ilog2_le (n : Nat) (h : n ≠ 0) : (2 : ℚ) ^ (ilog2 n : Int) ≤ (n : ℚ) := by
  rw [ilog2_eq, zpow_natCast]
  exact_mod_cast Nat.log2_self_le h

theorem lt_ilog2 (n : Nat) : (n : ℚ) < (2 : ℚ) ^ ((ilog2 n : Int) + 1) := by
  rw [ilog2_eq]
  have : (n : ℚ) < (2 : ℚ) ^ (n.log2 + 1) := by exact_mod_cast (Nat.lt_log2_self (n := n))
  rwa [show ((n.log2 : Int) + 1) = ((n.log2 + 1 : Nat) : Int) by push_cast; rfl, zpow_natCast]

theorem binade_spec (x : ℚ) (hx : x ≠ 0) :
    (2 : ℚ) ^ (binade x) ≤ |x| ∧ |x| < (2 : ℚ) ^ (binade x + 1) := by
  have hn : x.num.natAbs ≠ 0 := by
    simpa using hx
  have hd : x.den ≠ 0 := x.den_nz
  have a1 := ilog2_le _ hn
  have a2 := lt_ilog2 x.num.natAbs
  have b1 := ilog2_le _ hd
  have b2 := lt_ilog2 x.den
  have hdpos : (0 : ℚ) < (x.den : ℚ) := by exact_mod_cast Nat.pos_of_ne_zero hd
  have two : (2 : ℚ) ≠ 0 := by norm_num
  have pa : (0 : ℚ) < (2 : ℚ) ^ (ilog2 x.num.natAbs : Int) := by positivity
  have pb : (0 : ℚ) < (2 : ℚ) ^ (ilog2 x.den : Int) := by positivity
  unfold binade
  simp only []
  split_ifs with h
  · refine ⟨h, ?_⟩
    rw [abs_eq_natAbs_div, div_lt_iff₀ hdpos]
    rw [show ((ilog2 x.num.natAbs : Int) - (ilog2 x.den : Int) + 1)
        = ((ilog2 x.num.natAbs : Int) + 1) - (ilog2 x.den : Int) by ring, zpow_sub₀ two]
    rw [div_mul_eq_mul_div, lt_div_iff₀ pb]
    calc (x.num.natAbs : ℚ) * 2 ^ (ilog2 x.den : Int)
        ≤ (x.num.natAbs : ℚ) * (x.den : ℚ) := by
          apply mul_le_mul_of_nonneg_left b1
          positivity
      _ < 2 ^ ((ilog2 x.num.natAbs : Int) + 1) * (x.den : ℚ) := by
          apply mul_lt_mul_of_pos_right a2 hdpos
  · push_neg at h
    refine ⟨?_, by
      rw [show ((ilog2 x.num.natAbs : Int) - (ilog2 x.den : Int) - 1 + 1)
        = (ilog2 x.num.natAbs : Int) - (ilog2 x.den : Int) by ring]
      exact h⟩
    rw [abs_eq_natAbs_div, le_div_iff₀ hdpos]
    rw [show ((ilog2 x.num.natAbs : Int) - (ilog2 x.den : Int) - 1)
        = (ilog2 x.num.natAbs : Int) - ((ilog2 x.den : Int) + 1) by ring, zpow_sub₀ two]
    have pb' : (0 : ℚ) < (2 : ℚ) ^ ((ilog2 x.den : Int) + 1) := by positivity
    rw [div_mul_eq_mul_div, div_le_iff₀ pb']
    calc (2 : ℚ) ^ (ilog2 x.num.natAbs : Int) * (x.den : ℚ)
        ≤ (x.num.natAbs : ℚ) * (x.den : ℚ) := by
          apply mul_le_mul_of_nonneg_right a1 hdpos.le
      _ ≤ (x.num.natAbs : ℚ) * 2 ^ ((ilog2 x.den : Int) + 1) := by
          apply mul_le_mul_of_nonneg_left b2.le
          positivity

theorem binade_unique (x : ℚ) (e : Int) (h1 : (2 : ℚ) ^ e ≤ |x|) (h2 : |x| < (2 : ℚ) ^ (e + 1)) :
    binade x = e := by
  have hx : x ≠ 0 := by
    intro h
    rw [h, abs_zero] at h1
    have : (0 : ℚ) < (2 : ℚ) ^ e := by positivity
    linarith
  obtain ⟨s1, s2⟩ := binade_spec x hx
  have one : (1 : ℚ) < 2 := by norm_num
  have c1 : binade x < e + 1 := (zpow_lt_zpow_iff_right₀ one).1 (lt_of_le_of_lt s1 h2)
  have c2 : e < binade x + 1 := (zpow_lt_zpow_iff_right₀ one).1 (lt_of_le_of_lt h1 s2)
  omega

theorem round_half_even_intCast (k : Int) : round_half_even (k : ℚ) = k := by
  unfold round_half_even
  simp

theorem round_half_even_le (z : ℚ) (b : Int) (h : z ≤ (b : ℚ)) : round_half_even z ≤ b := by
  have hf : ⌊z⌋ ≤ b := by
    have := Int.floor_le z
    have h3 : ((⌊z⌋ : Int) : ℚ) ≤ (b : ℚ) := le_trans this h
    exact_mod_cast h3
  have hs : (1 : ℚ) / 2 ≤ z - (⌊z⌋ : ℚ) → ⌊z⌋ + 1 ≤ b := by
    intro h2
    have h3 : ((⌊z⌋ : Int) : ℚ) < (b : ℚ) := by linarith
    have h4 : ⌊z⌋ < b := by exact_mod_cast h3
    omega
  unfold round_half_even
  simp only []
  split_ifs with c1 c2 c3
  · exact hf
  · exact hs c2.le
  · exact hf
  · exact hs (by push_neg at c1; exact c1)

theorem le_round_half_even (z : ℚ) (a : Int) (h : (a : ℚ) ≤ z) : a ≤ round_half_even z := by
  have hf : a ≤ ⌊z⌋ := Int.le_floor.mpr h
  unfold round_half_even
  simp only []
  split_ifs <;> omega

theorem round_half_even_neg (z : ℚ) : round_half_even (-z) = -round_half_even z := by
  by_cases hz : (⌊z⌋ : ℚ) = z
  · rw [← hz, ← Int.cast_neg, round_half_even_intCast, round_half_even_intCast]
  · have h1 := Int.floor_le z
    have h2 := Int.lt_floor_add_one z
    have hlt : (⌊z⌋ : ℚ) < z := lt_of_le_of_ne h1 hz
    have hfl : ⌊-z⌋ = -⌊z⌋ - 1 := by
      rw [Int.floor_eq_iff]
      push_cast
      constructor <;> linarith
    unfold round_half_even
    simp only [hfl]
    push_cast
    split_ifs <;> first | omega | (exfalso; linarith)

theorem binade_neg (x : ℚ) : binade (-x) = binade x := by
  by_cases hx : x = 0
  · rw [hx, neg_zero]
  · obtain ⟨s1, s2⟩ := binade_spec x hx
    exact binade_unique (-x) _ (by rwa [abs_neg]) (by rwa [abs_neg])

theorem f32_round_neg (x : ℚ) : f32_round (-x) = -f32_round x := by
  unfold f32_round
  by_cases hx : x = 0
  · simp [hx]
  · have hx' : -x ≠ 0 := neg_ne_zero.mpr hx
    simp only [hx, hx', if_false, binade_neg, neg_div, round_half_even_neg]
    push_cast
    ring

theorem f32_round_of_multiple (y : ℚ) (m : Int)
    (h : y = (m : ℚ) * (2 : ℚ) ^ (max (binade y) (-126) - 23)) : f32_round y = y := by
  unfold f32_round
  by_cases hy : y = 0
  · simp [hy]
  · simp only [hy, if_false]
    have hu : (2 : ℚ) ^ (max (binade y) (-126) - 23) ≠ 0 := by positivity
    have hq : y / (2 : ℚ) ^ (max (binade y) (-126) - 23) = (m : ℚ) := by
      rw [div_eq_iff hu]
      exact h
    rw [hq, round_half_even_intCast]
    exact h.symm

theorem f32_round_idem_pos (x : ℚ) (hx : 0 < x) : f32_round (f32_round x) = f32_round x := by
  have hx0 : x ≠ 0 := ne_of_gt hx
  obtain ⟨s1, s2⟩ := binade_spec x hx0
  rw [abs_of_pos hx] at s1 s2
  have two : (2 : ℚ) ≠ 0 := by norm_num
  have one : (1 : ℚ) < 2 := by norm_num
  have hfx : f32_round x = (round_half_even (x / (2 : ℚ) ^ (max (binade x) (-126) - 23)) : ℚ)
      * (2 : ℚ) ^ (max (binade x) (-126) - 23) := by
    unfold f32_round
    simp only [hx0, if_false]
  generalize he : max (binade x) (-126) = e at hfx
  have he1 : binade x ≤ e := by rw [← he]; exact le_max_left _ _
  have he2 : -126 ≤ e := by rw [← he]; exact le_max_right _ _
  have hu : (0 : ℚ) < (2 : ℚ) ^ (e - 23) := by positivity
  generalize hk : round_half_even (x / (2 : ℚ) ^ (e - 23)) = k at hfx
  have hz0 : (0 : ℚ) ≤ x / (2 : ℚ) ^ (e - 23) := by positivity
  have hz1 : x / (2 : ℚ) ^ (e - 23) ≤ ((16777216 : Int) : ℚ) := by
    rw [div_le_iff₀ hu]
    have h24 : ((16777216 : Int) : ℚ) * (2 : ℚ) ^ (e - 23) = (2 : ℚ) ^ (e + 1) := by
      rw [show ((16777216 : Int) : ℚ) = (2 : ℚ) ^ (24 : Int) by norm_num, ← zpow_add₀ two]
      congr 1
      ring
    rw [h24]
    have : (2 : ℚ) ^ (binade x + 1) ≤ (2 : ℚ) ^ (e + 1) :=
      (zpow_le_zpow_iff_right₀ one).2 (by omega)
    linarith
  have hk0 : 0 ≤ k := by
    rw [← hk]
    exact le_round_half_even _ 0 (by simpa using hz0)
  have hk1 : k ≤ 16777216 := by
    rw [← hk]
    exact round_half_even_le _ 16777216 hz1
  rw [hfx]
  by_cases hkz : k = 0
  · simp [hkz, f32_round]
  have hkpos : (0 : ℚ) < (k : ℚ) := by
    have : 0 < k := by omega
    exact_mod_cast this
  have hypos : (0 : ℚ) < (k : ℚ) * (2 : ℚ) ^ (e - 23) := by positivity
  by_cases hk24 : k = 16777216
  · have hy : (k : ℚ) * (2 : ℚ) ^ (e - 23) = (2 : ℚ) ^ (e + 1) := by
      rw [hk24, show ((16777216 : Int) : ℚ) = (2 : ℚ) ^ (24 : Int) by norm_num, ← zpow_add₀ two]
      congr 1
      ring
    rw [hy]
    have hb : binade ((2 : ℚ) ^ (e + 1)) = e + 1 := by
      apply binade_unique
      · rw [abs_of_pos (by positivity)]
      · rw [abs_of_pos (by positivity)]
        exact (zpow_lt_zpow_iff_right₀ one).2 (by omega)
    apply f32_round_of_multiple _ 8388608
    rw [hb, max_eq_left (by omega),
      show ((8388608 : Int) : ℚ) = (2 : ℚ) ^ (23 : Int) by norm_num, ← zpow_add₀ two]
    congr 1
    ring
  · have hlt : (k : ℚ) * (2 : ℚ) ^ (e - 23) < (2 : ℚ) ^ (e + 1) := by
      have h24 : ((16777216 : Int) : ℚ) * (2 : ℚ) ^ (e - 23) = (2 : ℚ) ^ (e + 1) := by
        rw [show ((16777216 : Int) : ℚ) = (2 : ℚ) ^ (24 : Int) by norm_num, ← zpow_add₀ two]
        congr 1
        ring
      rw [← h24]
      apply mul_lt_mul_of_pos_right _ hu
      have : k < 16777216 := by omega
      exact_mod_cast this
    obtain ⟨t1, t2⟩ := binade_spec ((k : ℚ) * (2 : ℚ) ^ (e - 23)) (ne_of_gt hypos)
    rw [abs_of_pos hypos] at t1 t2
    have hb : binade ((k : ℚ) * (2 : ℚ) ^ (e - 23)) < e + 1 :=
      (zpow_lt_zpow_iff_right₀ one).1 (lt_of_le_of_lt t1 hlt)
    generalize he' : max (binade ((k : ℚ) * (2 : ℚ) ^ (e - 23))) (-126) = e'
    have hle : e' ≤ e := by
      rw [← he']
      exact max_le (by omega) he2
    apply f32_round_of_multiple _ (k * 2 ^ (e - e').toNat)
    rw [he']
    push_cast
    rw [mul_assoc]
    congr 1
    rw [← zpow_natCast, ← zpow_add₀ two]
    congr 1
    rw [Int.toNat_of_nonneg (by omega)]
    ring

theorem f32_round_idem (x : ℚ) : f32_round (f32_round x) = f32_round x := by
  rcases lt_trichotomy x 0 with h | h | h
  · have hp := f32_round_idem_pos (-x) (by linarith)
    rw [f32_round_neg, f32_round_neg] at hp
    exact neg_injective hp
  · rw [h]
    simp [f32_round]
  · exact f32_round_idem_pos x h

theorem int_to_f32_9000 : int_to_f32 9000 = 9000 := by decide!

theorem int_to_f32_one : int_to_f32 1 = 1 := by decide!

theorem int_to_f32_neg_one : int_to_f32 (-1) = -1 := by decide!

/-! ## Theorems: target resolution -/

theorem c_round_abs (x : ℚ) : |x - (c_round x : ℚ)| ≤ 1 / 2 := by
  unfold c_round
  rw [abs_le]
  split_ifs with h
  · have h1 := Int.floor_le (x + 1 / 2)
    have h2 := Int.lt_floor_add_one (x + 1 / 2)
    constructor <;> linarith
  · have h1 := Int.le_ceil (x - 1 / 2)
    have h2 := Int.ceil_lt_add_one (x - 1 / 2)
    constructor <;> linarith

theorem near_half_rotations (o r : Int)
    (h : |2 * (o : ℚ) / (enc_rot : ℚ) - (r : ℚ)| ≤ 1 / 2) :
    -6467 ≤ 2 * o - 12934 * r ∧ 2 * o - 12934 * r ≤ 6467 := by
  rw [abs_le] at h
  have he : (enc_rot : ℚ) = 12934 := by simp [enc_rot]
  rw [he] at h
  obtain ⟨h1, h2⟩ := h
  have a : (-6467 : ℚ) ≤ 2 * (o : ℚ) - 12934 * (r : ℚ) := by linarith
  have b : 2 * (o : ℚ) - 12934 * (r : ℚ) ≤ 6467 := by linarith
  constructor
  · exact_mod_cast a
  · exact_mod_cast b

theorem steer_r_near (o : Int) :
    -3233 ≤ o - steer_r o * 6467 ∧ o - steer_r o * 6467 ≤ 3233 := by
  have h := near_half_rotations o (steer_r o) (c_round_abs _)
  omega

/-- The value of `std::round` in line 121 is the nearest integer, whatever the rule for
halfway cases: the quotient is never halfway between two integers. -/
theorem steer_r_eq_round (o : Int) : steer_r o = round (2 * (o : ℚ) / (enc_rot : ℚ)) := by
  have h1 := near_half_rotations o (steer_r o) (c_round_abs _)
  have h2 := near_half_rotations o (round (2 * (o : ℚ) / (enc_rot : ℚ))) (abs_sub_round _)
  omega

/-- The value of `std::round` in line 121 does not depend on a rounding error of the
quotient below `1 / 12934`: the error of the `double` division is far smaller. -/
theorem steer_r_rounding_stable (o : Int) (e : ℚ) (he : |e| < 1 / 12934) :
    c_round (2 * (o : ℚ) / (enc_rot : ℚ) + e) = steer_r o := by
  have h1 := near_half_rotations o (steer_r o) (c_round_abs _)
  have h2 := c_round_abs (2 * (o : ℚ) / (enc_rot : ℚ) + e)
  generalize c_round (2 * (o : ℚ) / (enc_rot : ℚ) + e) = r at h2 ⊢
  have he' : (enc_rot : ℚ) = 12934 := by simp [enc_rot]
  rw [he'] at h2
  rw [abs_le] at h2
  rw [abs_lt] at he
  obtain ⟨e1, e2⟩ := he
  obtain ⟨a1, a2⟩ := h2
  have b1 : (-6468 : ℚ) < 2 * (o : ℚ) - 12934 * (r : ℚ) := by linarith
  have b2 : 2 * (o : ℚ) - 12934 * (r : ℚ) < 6468 := by linarith
  have c1 : (-6468 : Int) < 2 * o - 12934 * r := by exact_mod_cast b1
  have c2 : 2 * o - 12934 * r < (6468 : Int) := by exact_mod_cast b2
  omega

theorem steer_drive_dir_eq (r : Int) : steer_drive_dir r = if Even r then 1 else -1 := by
  unfold steer_drive_dir
  have h : Int.tmod r 2 = 0 ↔ Even r := by
    rw [← Int.dvd_iff_tmod_eq_zero, even_iff_two_dvd]
  by_cases h2 : Even r
  · simp [h2, h.2 h2]
  · have : ¬ Int.tmod r 2 = 0 := fun hh => h2 (h.1 hh)
    simp [h2, this]

theorem c_trunc_neg (y : ℚ) : c_trunc (-y) = -c_trunc y := by
  unfold c_trunc
  by_cases h1 : 0 ≤ y <;> by_cases h2 : 0 ≤ -y
  · have : y = 0 := by linarith
    subst this
    simp
  · simp [h1, h2, Int.ceil_neg]
  · simp [h1, h2, Int.floor_neg]
  · exfalso
    push_neg at h1 h2
    linarith

/-- Line 123: multiplying by the direction is exact, so the stored value is the truncated
binary32 product `abs(cmp[i]) * 9000` with the sign of the direction. -/
theorem steer_rpm_eq (mag : ℚ) (r : Int) :
    c_trunc (f32_round (f32_round (mag * int_to_f32 9000) * int_to_f32 (steer_drive_dir r))) =
      steer_drive_dir r * c_trunc (f32_round (mag * 9000)) := by
  rw [steer_drive_dir_eq, int_to_f32_9000]
  by_cases he : Even r
  · simp only [he, if_true]
    rw [int_to_f32_one, mul_one, f32_round_idem, one_mul]
  · simp only [he, if_false]
    rw [int_to_f32_neg_one, mul_neg, mul_one, f32_round_neg, f32_round_idem, c_trunc_neg]
    ring

/-- Without overflow, lines 120-124 compute `r` from the exact offset and subtract `r`
half rotations from the raw target. -/
theorem steer_resolve_exact (T p : Int) (mag : ℚ) (h : steer_no_overflow T p) :
    steer_resolve T mag p =
      { target_rpm := c_trunc (f32_round (f32_round (mag * int_to_f32 9000) *
          int_to_f32 (steer_drive_dir (steer_r (T - -p))))),
        target_pos := T - steer_r (T - -p) * (enc_rot / 2) } := by
  obtain ⟨_, _, h3, h4, h5, h6⟩ := h
  unfold steer_resolve steer_offset
  simp only [wrapInt32_of_inInt32 _ h3, wrapInt32_of_inInt32 _ h4, wrapInt32_of_inInt32 _ h5,
    wrapInt32_of_inInt32 _ h6]

/-- C4: when no `int` operation of the target-resolution step overflows, the resolved
`target_pos` is within a quarter of `enc_rot` of the current position `-amt[i].pos`. -/
theorem steer_quarter_rotation (new_tag_pos amt_pos : Int) (mag : ℚ)
    (h : steer_no_overflow new_tag_pos amt_pos) :
    |(steer_resolve new_tag_pos mag amt_pos).target_pos - (-amt_pos)| ≤ enc_rot / 4 := by
  rw [steer_resolve_exact new_tag_pos amt_pos mag h]
  have hn := steer_r_near (new_tag_pos - -amt_pos)
  have e2 : enc_rot / 2 = 6467 := by decide
  have e4 : enc_rot / 4 = 3233 := by decide
  simp only [e2, e4]
  rw [abs_le]
  constructor <;> omega

theorem steer_quarter_rotation_witness :
    steer_no_overflow 3234 (-100000) ∧
      |(steer_resolve 3234 1 (-100000)).target_pos - (-(-100000))| ≤ enc_rot / 4 :=
  ⟨by decide!, steer_quarter_rotation 3234 (-100000) 1 (by decide!)⟩

/-- C5: when no `int` operation overflows, with `r` the nearest integer to
`2 * offset / enc_rot`, the resolved `target_pos` is the raw target minus `r` half
rotations and `target_rpm` is the binary32 product `magnitude * 9000`, truncated, times
the direction, which is `+1` for even `r` and `-1` for odd `r` (negative `r` included).
At current position 0 the raw target 0 gives target 0 with direction `+1`, and the raw
target of half a rotation gives target 0 with direction `-1`. -/
theorem steer_resolve_pairs :
    (∀ (new_tag_pos amt_pos : Int) (mag : ℚ), steer_no_overflow new_tag_pos amt_pos →
      ∃ r : Int, r = round (2 * ((new_tag_pos - -amt_pos : Int) : ℚ) / (enc_rot : ℚ)) ∧
        (steer_resolve new_tag_pos mag amt_pos).target_pos = new_tag_pos - r * (enc_rot / 2) ∧
        steer_drive_dir r = (if Even r then 1 else -1) ∧
        (steer_resolve new_tag_pos mag amt_pos).target_rpm =
          steer_drive_dir r * c_trunc (f32_round (mag * 9000))) ∧
    (∀ mag : ℚ, steer_resolve 0 mag 0 = ⟨c_trunc (f32_round (mag * 9000)), 0⟩) ∧
    (∀ mag : ℚ, steer_resolve (enc_rot / 2) mag 0 = ⟨-c_trunc (f32_round (mag * 9000)), 0⟩) := by
  refine ⟨?_, ?_, ?_⟩
  · intro T p mag h
    refine ⟨steer_r (T - -p), steer_r_eq_round _, ?_, steer_drive_dir_eq _, ?_⟩
    · rw [steer_resolve_exact T p mag h]
    · rw [steer_resolve_exact T p mag h, steer_rpm_eq]
  · intro mag
    rw [steer_resolve_exact 0 0 mag (by decide!), steer_rpm_eq]
    have hr : steer_r (0 - -0) = 0 := by decide!
    rw [hr]
    have hd : steer_drive_dir 0 = 1 := by decide
    rw [hd]
    simp
  · intro mag
    have e2 : enc_rot / 2 = 6467 := by decide
    rw [e2, steer_resolve_exact 6467 0 mag (by decide!), steer_rpm_eq]
    have hr : steer_r (6467 - -0) = 1 := by decide!
    rw [hr]
    have hd : steer_drive_dir 1 = -1 := by decide
    rw [hd, e2]
    simp

theorem steer_resolve_pairs_witness :
    ∃ r : Int, r = round (2 * ((3000 - -(-10000) : Int) : ℚ) / (enc_rot : ℚ)) ∧
      (steer_resolve 3000 (16775351 / 16777216) (-10000)).target_pos =
        3000 - r * (enc_rot / 2) ∧
      steer_drive_dir r = (if Even r then 1 else -1) ∧
      (steer_resolve 3000 (16775351 / 16777216) (-10000)).target_rpm =
        steer_drive_dir r * c_trunc (f32_round (16775351 / 16777216 * 9000)) :=
  steer_resolve_pairs.1 3000 (-10000) (16775351 / 16777216) (by decide!)

/-- Line 123 at `abs(cmp[i]) = 16775351 / 2^24`: the exact product `8998.9995...` rounds
to the `float` `8999`, so 8999 is stored for an even `r` and -8999 for an odd `r`. -/
theorem steer_resolve_binary32_example :
    steer_resolve 0 (16775351 / 16777216) 0 = ⟨8999, 0⟩ ∧
    steer_resolve 3000 (16775351 / 16777216) (-10000) = ⟨-8999, 9467⟩ := by
  decide!

/-! ## Theorems: module controller -/

theorem clamp_bounds (v lo hi : ℚ) (h : lo ≤ hi) : lo ≤ clamp v lo hi ∧ clamp v lo hi ≤ hi := by
  unfold clamp
  split_ifs with h1 h2
  · exact ⟨le_refl _, h⟩
  · exact ⟨h, le_refl _⟩
  · push_neg at h1 h2
    exact ⟨h1, h2⟩

theorem c_trunc_bounds (x : ℚ) (n : Int) (h1 : -((n : ℚ) + 1) < x) (h2 : x < (n : ℚ) + 1) :
    -n ≤ c_trunc x ∧ c_trunc x ≤ n := by
  unfold c_trunc
  split_ifs with h
  · constructor
    · have : (0 : Int) ≤ ⌊x⌋ := Int.floor_nonneg.mpr h
      have hn : (0 : ℚ) < (n : ℚ) + 1 := by linarith
      have hn' : (0 : Int) < n + 1 := by exact_mod_cast hn
      omega
    · have : ⌊x⌋ < n + 1 := by
        rw [Int.floor_lt]
        push_cast
        exact h2
      omega
  · push_neg at h
    constructor
    · have : -(n + 1) < ⌈x⌉ := by
        rw [Int.lt_ceil]
        push_cast
        linarith
      omega
    · have : ⌈x⌉ ≤ 0 := by
        rw [Int.ceil_le]
        push_cast
        linarith
      have hn : (0 : ℚ) < (n : ℚ) + 1 := by linarith
      have hn' : (0 : Int) < n + 1 := by exact_mod_cast hn
      omega

/-- The condition of line 196 is always true: the control loop always runs `calc_pid`. -/
theorem control_module_eq {σ : Type} (P : PidOps σ) (c620_max now pre_alive rpm amt_pos
    delta : Int) (m : ModuleState σ) :
    control_module P c620_max now pre_alive rpm amt_pos delta m =
      { dji_pwm := wrapInt16 (c_trunc
          (m.unit.calc_pid P c620_max rpm (wrapInt32 (-amt_pos)) delta).1.1),
        dc_pwm := wrapInt16 (c_trunc
          (m.unit.calc_pid P c620_max rpm (wrapInt32 (-amt_pos)) delta).1.2),
        unit := (m.unit.calc_pid P c620_max rpm (wrapInt32 (-amt_pos)) delta).2 } := by
  unfold control_module
  simp

/-- C6 (evaluation at the failing input): 200 ms after the last telemetry message, with
both commands at 1000 and both PID states at 5, the control cycle stores the PID outputs
3000 and -3000 and keeps the PID states; the commands are not halved to 500 and the
states are not refreshed. -/
theorem control_module_stale_runs_pid :
    (100000 : Int) ≤ 200000 - 0 ∧
    control_module (const_pid 3000) 16384 200000 0 0 0 10000 ⟨1000, 1000, ⟨5, 5, 0, 0⟩⟩ =
      ⟨3000, -3000, ⟨5, 5, 0, 0⟩⟩ ∧
    (const_pid 3000).refresh 5 = 0 ∧ Int.tdiv 1000 2 = 500 := by
  decide!

/-- The `double` product of line 35 is `22936.9` up to rounding; any error below `0.1`
leaves its truncation at 22936. -/
theorem DCSender_max_stable (e : ℚ) (he : |e| < 1 / 10) :
    c_trunc ((INT16_MAX : ℚ) * (7 / 10) + e) = 22936 := by
  rw [abs_lt] at he
  have hI : (INT16_MAX : ℚ) = 32767 := by simp [INT16_MAX]
  rw [hI]
  unfold c_trunc
  have h0 : (0 : ℚ) ≤ 32767 * (7 / 10) + e := by linarith [he.1]
  rw [if_pos h0, Int.floor_eq_iff]
  push_cast
  constructor <;> linarith [he.1, he.2]

theorem steer_limit_eq :
    f32_round (f32_round (7 / 10) * int_to_f32 DCSender.max) = 16440525 / 1024 ∧
    f32_round (-f32_round (7 / 10) * int_to_f32 DCSender.max) = -(16440525 / 1024) := by
  decide!

/-- C7 (as stated, refuted): `DCSender::max` is 22936, and for the PID output 20000 the
steer value returned by `calc_pid` is -16055.2001953125 (the binary32 product
`0.7f * 22936`, negated), not `-clamp(20000, -22936, 22936)`, which is -20000. -/
theorem calc_pid_steer_limit_counterexample :
    DCSender.max = 22936 ∧
    (SteerUnit.calc_pid (const_pid 20000) 16384 ⟨0, 0, 0, 0⟩ 0 0 10000).1.2
      = -(16440525 / 1024) ∧
    -clamp 20000 (-(DCSender.max : ℚ)) (DCSender.max : ℚ) = -20000 := by
  decide!

/-- C7 (amended): the steer value returned by `calc_pid` is the negated PID output clamped
to plus or minus the binary32 product `0.7f * DCSender::max`, which is 16055.2001953125
(`DCSender::max` is 22936, 70% of `INT16_MAX`); the steer command stored by the control
cycle is its truncation and lies in [-16055, 16055]. -/
theorem calc_pid_steer_limit {σ : Type} (P : PidOps σ) (c620_max : Int) (u : SteerUnit σ)
    (rpm pos delta : Int) (now pre_alive amt_pos : Int) (m : ModuleState σ) :
    (u.calc_pid P c620_max rpm pos delta).1.2 =
      -clamp (P.pid_calc u.pid_steer (u.target_pos : ℚ) (pos : ℚ) delta).2
        (-(16440525 / 1024)) (16440525 / 1024) ∧
    f32_round (f32_round (7 / 10) * int_to_f32 DCSender.max) = 16440525 / 1024 ∧
    DCSender.max = 22936 ∧
    -(16440525 / 1024) ≤ (u.calc_pid P c620_max rpm pos delta).1.2 ∧
    (u.calc_pid P c620_max rpm pos delta).1.2 ≤ 16440525 / 1024 ∧
    -16055 ≤ (control_module P c620_max now pre_alive rpm amt_pos delta m).dc_pwm ∧
    (control_module P c620_max now pre_alive rpm amt_pos delta m).dc_pwm ≤ 16055 := by
  obtain ⟨hL, hL'⟩ := steer_limit_eq
  have key : ∀ (u : SteerUnit σ) (pos : Int), (u.calc_pid P c620_max rpm pos delta).1.2 =
      -clamp (P.pid_calc u.pid_steer (u.target_pos : ℚ) (pos : ℚ) delta).2
        (-(16440525 / 1024)) (16440525 / 1024) := by
    intro u pos
    unfold SteerUnit.calc_pid
    simp only [hL, hL']
  have bnd : ∀ (u : SteerUnit σ) (pos : Int),
      -(16440525 / 1024 : ℚ) ≤ (u.calc_pid P c620_max rpm pos delta).1.2 ∧
      (u.calc_pid P c620_max rpm pos delta).1.2 ≤ 16440525 / 1024 := by
    intro u pos
    rw [key]
    have hc := clamp_bounds (P.pid_calc u.pid_steer (u.target_pos : ℚ) (pos : ℚ) delta).2
      (-(16440525 / 1024)) (16440525 / 1024) (by norm_num)
    constructor <;> linarith [hc.1, hc.2]
  refine ⟨key u pos, hL, by decide!, (bnd u pos).1, (bnd u pos).2, ?_⟩
  rw [control_module_eq]
  simp only []
  have hb := bnd m.unit (wrapInt32 (-amt_pos))
  have ht := c_trunc_bounds _ 16055 (by push_cast; linarith [hb.1]) (by push_cast; linarith [hb.2])
  unfold wrapInt16
  constructor <;> omega

/-! ## Theorems: operator input -/

theorem stick_decode_as_int8 (b : Nat) (hb : b < 256) :
    stick_decode (as_int8 b) = if |(b : Int) - 128| < 15 then 0 else (b : Int) - 128 := by
  have h : wrapInt8 (as_int8 b - 128) = (b : Int) - 128 := by
    unfold as_int8 wrapInt8 u8
    omega
  unfold stick_decode
  simp only [h]

/-- C8: when `Controller::read` accepts a frame (standard data frame with id 15), each
of the four stored stick values is 0 if the raw axis byte `b` has `|b - 128| < 15` and
`b - 128` otherwise, so it lies in -128..127 and is 0 or of magnitude at least 15. -/
theorem controller_read_axis (c : Controller) (msg : CANMessage)
    (hacc : msg.format = CANFormat.CANStandard ∧ msg.type = CANType.CANData ∧ msg.id = 15)
    (i : Nat) (hi : i < 4) (hb : msg.data.getD (2 + i) 0 < 256) :
    (c.read msg).stick.length = 4 ∧
    (c.read msg).stick.getD i 0 =
      (if |(msg.data.getD (2 + i) 0 : Int) - 128| < 15 then 0
       else (msg.data.getD (2 + i) 0 : Int) - 128) ∧
    -128 ≤ (c.read msg).stick.getD i 0 ∧ (c.read msg).stick.getD i 0 ≤ 127 ∧
    ((c.read msg).stick.getD i 0 = 0 ∨ 15 ≤ |(c.read msg).stick.getD i 0|) := by
  have hval : (c.read msg).stick.getD i 0 = stick_decode (as_int8 (msg.data.getD (2 + i) 0)) := by
    unfold Controller.read
    rw [if_pos hacc]
    interval_cases i <;> rfl
  have hlen : (c.read msg).stick.length = 4 := by
    unfold Controller.read
    rw [if_pos hacc]
    rfl
  rw [hval, stick_decode_as_int8 _ hb]
  refine ⟨hlen, rfl, ?_⟩
  have hb' : ((msg.data.getD (2 + i) 0 : Nat) : Int) < 256 := by exact_mod_cast hb
  have hb0 : (0 : Int) ≤ ((msg.data.getD (2 + i) 0 : Nat) : Int) := Int.ofNat_nonneg _
  generalize ((msg.data.getD (2 + i) 0 : Nat) : Int) = x at hb' hb0 ⊢
  split_ifs with h
  · simp
  · push_neg at h
    refine ⟨by omega, by omega, Or.inr h⟩

theorem controller_read_axis_witness :
    ((⟨[], []⟩ : Controller).read
        ⟨15, [1, 2, 0, 128, 142, 255, 0, 0], CANFormat.CANStandard, CANType.CANData⟩).stick.getD 2 0
      = 0 :=
  ((controller_read_axis ⟨[], []⟩
      ⟨15, [1, 2, 0, 128, 142, 255, 0, 0], CANFormat.CANStandard, CANType.CANData⟩
      ⟨rfl, rfl, rfl⟩ 2 (by decide) (by decide)).2.1).trans (by decide)

end SteerDrive
